import Mathlib

/-!
Verification of the spatial load-disaggregation and capacity-reconciliation
engine of `scripts/add_electricity.py` (PyPSA-Spain).

All machine numbers are modelled as rationals.  Each definition below is a
shallow embedding of the corresponding Python function; the source line it
comes from is recorded in its doc comment.
-/

/-- Embedding of the Python builtin `int(...)` applied to a real number:
truncation toward zero. -/
def pyInt (x : ℚ) : ℤ := if x < 0 then ⌈x⌉ else ⌊x⌋

/-- Embedding of `normed(s) = s / s.sum()` (line 111). -/
def normed (v : List ℚ) : List ℚ := v.map (fun x => x / v.sum)

/-- A generator record: the two columns of `n.generators` that the
reconciler reads and writes (`p_nom`, `p_nom_max`). -/
structure Gen where
  pNom : ℚ
  pNomMax : ℚ
deriving DecidableEq

instance : Inhabited Gen := ⟨⟨0, 0⟩⟩

/-- The `method_increase` configuration value ("additional" | "proportional"). -/
inductive MethodIncrease where
  | additional
  | proportional
deriving DecidableEq

/-- Embedding of `_update_in_network(df, required_capacity, method_increase)`
(lines 988-1024).  The Boolean records whether the proportional-with-zero
fallback warning was printed.  Note that the Python code compares
`int(required_capacity)` with `int(initial_capacity)`, i.e. the comparison is
made after truncation toward zero; and that for method "proportional" the two
guarded branches require `initial_capacity > 0` resp. `initial_capacity == 0`,
so a negative initial capacity leaves the frame unchanged. -/
def update_in_network (gens : List Gen) (required : ℚ) (method : MethodIncrease) :
    List Gen × Bool :=
  let initial := (gens.map Gen.pNom).sum
  if pyInt required > pyInt initial then
    match method with
    | .additional =>
        (gens.map (fun g => { g with pNom := g.pNom + (required - initial) / (gens.length : ℚ) }),
         false)
    | .proportional =>
        if 0 < initial then
          (gens.map (fun g => { g with pNom := g.pNom * (required / initial) }), false)
        else if initial = 0 then
          (gens.map (fun g => { g with pNom := g.pNom + (required - initial) / (gens.length : ℚ) }),
           true)
        else (gens, false)
  else if pyInt required < pyInt initial then
    (gens.map (fun g => { g with pNom := g.pNom * (required / initial) }), false)
  else (gens, false)

/-- The index selected by
`df_updated[df_generators_local_cc['p_nom']>df_updated['p_nom_max']].index[0]`
(line 1108): the first position whose ORIGINAL `p_nom` (from
`df_generators_local_cc`) exceeds the current `p_nom_max`.  `none` models the
`IndexError` raised by `.index[0]` on an empty selection. -/
def firstConflictive : List Gen → List Gen → Option ℕ
  | o :: os, u :: us =>
      if u.pNomMax < o.pNom then some 0
      else (firstConflictive os us).map (fun k => k + 1)
  | _, _ => none

/-- Embedding of `df_to_sanitise.drop(index_conflictive)` on a frame with unique labels:
remove the row labelled `i`.  (The caller checks membership first; a missing
label raises `KeyError` in pandas.) -/
def dropIdx : List (ℕ × Gen) → ℕ → List (ℕ × Gen)
  | [], _ => []
  | p :: ps, i => if p.1 = i then ps else p :: dropIdx ps i

/-- Embedding of `df_updated.update(df_to_sanitise)` (line 1125): write the rows of the
sanitise frame back into the full frame at their labels. -/
def writeBack (updated : List Gen) (san : List (ℕ × Gen)) : List Gen :=
  san.foldl (fun acc p => acc.set p.1 p.2) updated

/-- Embedding of the overflow-repair `while` loop of
`fun_update_elec_capacities` (lines 1105-1125).  `orig` is
`df_generators_local_cc` (never mutated), `updated` is `df_updated`,
`sanitise` is `df_to_sanitise` carried as labelled rows.  `none` models an
uncaught exception (the `IndexError` of line 1108 on an empty selection, or
the `KeyError` of line 1117 when the label was already dropped).  The loop is
a structural recursion on a fuel argument; each executed iteration drops one
row from `sanitise`, so the fuel `sanitise.length + 1` supplied by the caller
is never exhausted. -/
def sanitise_loop (orig : List Gen) (method : MethodIncrease) :
    ℕ → List Gen → List (ℕ × Gen) → Option (List Gen)
  | 0, _, _ => none
  | fuel + 1, updated, sanitise =>
    if updated.any (fun g => decide (g.pNomMax < g.pNom)) then
      match firstConflictive orig updated with
      | none => none
      | some i =>
        let gi := (updated.get? i).getD default
        let overcapacity := gi.pNom - gi.pNomMax
        let updated2 := updated.set i ⟨gi.pNom - overcapacity, gi.pNomMax⟩
        if sanitise.any (fun p => p.1 == i) then
          let sanitise2 := dropIdx sanitise i
          let required2 := ((sanitise2.map (fun p => p.2.pNom)).sum) + overcapacity
          let sanitise3 := (sanitise2.map Prod.fst).zip
            ((update_in_network (sanitise2.map Prod.snd) required2 method).1)
          sanitise_loop orig method fuel (writeBack updated2 sanitise3) sanitise3
        else none
    else some updated

/-- Embedding of the per-(region, carrier) body of
`fun_update_elec_capacities` (lines 1090-1125), from the call to
`_update_in_network` onward: update toward the required capacity, abort the
run (`sys.exit`, line 1099) if the updated total `p_nom` exceeds the total
`p_nom_max`, then run the overflow-repair loop.  `none` is an aborted run. -/
def update_elec_capacities (gens : List Gen) (required : ℚ) (method : MethodIncrease) :
    Option (List Gen) :=
  let df_updated := (update_in_network gens required method).1
  if (df_updated.map Gen.pNom).sum > (df_updated.map Gen.pNomMax).sum then
    none
  else
    sanitise_loop gens method (df_updated.length + 1) df_updated df_updated.enum

/-- The factor computation of `upsample` inside `attach_load`
(lines 327-354): the PyPSA-Spain weights 0.18/0.82 when `update_gdp_pop` is
set and the country is ES, the PyPSA-Eur weights 0.6/0.4 otherwise; for UA
and MD the factors are overwritten from the precomputed per-bus table
(`gdpAlt`, `popAlt`). -/
def upsampleFactors (update_gdp_pop : Bool) (cntry : String)
    (gdp_n pop_n gdpAlt popAlt : List ℚ) : List ℚ :=
  let factors :=
    if update_gdp_pop && (cntry == "ES") then
      normed (List.zipWith (· + ·)
        ((normed gdp_n).map (fun x => 0.18 * x)) ((normed pop_n).map (fun x => 0.82 * x)))
    else
      normed (List.zipWith (· + ·)
        ((normed gdp_n).map (fun x => 0.6 * x)) ((normed pop_n).map (fun x => 0.4 * x)))
  if cntry == "UA" || cntry == "MD" then
    normed (List.zipWith (· + ·)
      ((normed gdpAlt).map (fun x => 0.6 * x)) ((normed popAlt).map (fun x => 0.4 * x)))
  else factors

/-- Embedding of `upsample(cntry, group, ...)` inside `attach_load`
(lines 312-359), one timestamp at a time.  `group` is the list of bus names
of the country, `load` the (already scaled) national series, `gdp_n`/`pop_n`
the per-bus transfer-weighted GDP and population sums.  The result is the row
of per-bus load values at timestamp `t` (columns in `group` order). -/
def upsample (update_gdp_pop : Bool) (cntry : String) (group : List String)
    (load : ℕ → ℚ) (gdp_n pop_n gdpAlt popAlt : List ℚ) (t : ℕ) : List ℚ :=
  if group.length = 1 then [load t]
  else (upsampleFactors update_gdp_pop cntry gdp_n pop_n gdpAlt popAlt).map
    (fun f => f * load t)

/-- Embedding note: `attach_load` scales the raw series first (`opsd_load *= scaling`,
line 308) and then upsamples per country. -/
def attach_load_upsample (update_gdp_pop : Bool) (scaling : ℚ) (cntry : String)
    (group : List String) (opsd_load : ℕ → ℚ) (gdp_n pop_n gdpAlt popAlt : List ℚ)
    (t : ℕ) : List ℚ :=
  upsample update_gdp_pop cntry group (fun s => scaling * opsd_load s)
    gdp_n pop_n gdpAlt popAlt t

/-- The factor computation of `upsample` inside `attach_load_vPyPSA_Spain`
(lines 448-458): the 0.18/0.82 weights whenever `update_gdp_pop` is set
(the regional variant runs on ES only and has no country test). -/
def factorsES (update_gdp_pop : Bool) (gdp_n pop_n : List ℚ) : List ℚ :=
  if update_gdp_pop then
    normed (List.zipWith (· + ·)
      ((normed gdp_n).map (fun x => 0.18 * x)) ((normed pop_n).map (fun x => 0.82 * x)))
  else
    normed (List.zipWith (· + ·)
      ((normed gdp_n).map (fun x => 0.6 * x)) ((normed pop_n).map (fun x => 0.4 * x)))

/-- The contribution `return_rr` of one region code `rr` inside
`attach_load_vPyPSA_Spain.upsample` (lines 422-487), one timestamp at a time:
the regional series spread over the buses by the factors.  The per-bus totals
accumulate these rows over all region codes. -/
def upsample_vPyPSA_Spain (update_gdp_pop : Bool) (loadRR : ℕ → ℚ)
    (gdp_n pop_n : List ℚ) (t : ℕ) : List ℚ :=
  (factorsES update_gdp_pop gdp_n pop_n).map (fun f => f * loadRR t)

/-- Modelled from the spec: the demand-weight formula
`factor = normalize(w_gdp * normalize(GDP_n) + w_pop * normalize(pop_n))`,
stated with explicit weights, for comparison with the factor computations
embedded from the source. -/
def specFactor (w_gdp w_pop : ℚ) (gdp_n pop_n : List ℚ) : List ℚ :=
  normed (List.zipWith (· + ·)
    ((normed gdp_n).map (fun x => w_gdp * x)) ((normed pop_n).map (fun x => w_pop * x)))

/-- Modelled from the spec: the capacity-update rule of the claim on
`_update_in_network`, amended so that the three-way comparison between the
required and the current capacity is made after truncation toward zero (as
the code does).  Returns the new `p_nom` column and the fallback-warning
flag. -/
def updateRuleSpec (pNoms : List ℚ) (required : ℚ) (method : MethodIncrease) :
    List ℚ × Bool :=
  let current := pNoms.sum
  if pyInt required > pyInt current then
    match method with
    | .additional =>
        (pNoms.map (fun x => x + (required - current) / (pNoms.length : ℚ)), false)
    | .proportional =>
        if current = 0 then
          (pNoms.map (fun x => x + (required - current) / (pNoms.length : ℚ)), true)
        else
          (pNoms.map (fun x => x * (required / current)), false)
  else if pyInt required < pyInt current then
    (pNoms.map (fun x => x * (required / current)), false)
  else (pNoms, false)

/-- A polygon, modelled as a finite set of unit cells; its area is the number
of cells.  Intersection of polygons is intersection of cell sets. -/
def shapeArea (s : Finset ℕ) : ℚ := s.card

/-- Embedding of `shapes_to_shapes(orig, dest)` (lines 283-295) as an entry
function: entry `(i, j)` of the sparse matrix is written only when source
polygon `j` intersects target polygon `i`, and then equals the intersection
area divided by the target area; unwritten entries are zero. -/
def shapes_to_shapes (orig dest : List (Finset ℕ)) (i j : ℕ) : ℚ :=
  match orig.get? j, dest.get? i with
  | some o, some d => if (o ∩ d).Nonempty then shapeArea (o ∩ d) / shapeArea d else 0
  | _, _ => 0

/-- The sum of row `i` of the transfer matrix (over the column range
`range(len(orig))` of line 290). -/
def transferRowSum (orig dest : List (Finset ℕ)) (i : ℕ) : ℚ :=
  ((List.range orig.length).map (fun j => shapes_to_shapes orig dest i j)).sum

/-- A reservoir hydro plant as `attach_hydro` sees it: its country and its
`max_hours` attribute, `none` for a missing (NaN) value. -/
structure HydroPlant where
  country : String
  max_hours : Option ℚ

/-- The per-country `max_hours_country` estimate after
`max_hours_country.clip(0, inplace=True)` (line 798): whichever estimator
produced it, its value is clipped below at zero; `none` is a country with no
usable reported statistics. -/
def max_hours_country_clipped (stats : String → Option ℚ) (c : String) : Option ℚ :=
  (stats c).map (fun v => max v 0)

/-- Embedding of
`hydro.max_hours.where(hydro.max_hours > 0, hydro.country.map(max_hours_country)).fillna(6)`
(lines 807-809): keep a positive per-plant value, otherwise fall back to the
clipped country estimate, otherwise default to 6. -/
def hydro_max_hours (stats : String → Option ℚ) (p : HydroPlant) : ℚ :=
  match p.max_hours with
  | some v =>
      if 0 < v then v else (max_hours_country_clipped stats p.country).getD 6
  | none => (max_hours_country_clipped stats p.country).getD 6

/-- The warning of lines 800-806: emitted when some plant country is missing
from the usable (non-NaN) country estimates. -/
def hydro_warning (stats : String → Option ℚ) (plants : List HydroPlant) : Bool :=
  plants.any (fun p => (stats p.country).isNone)

/-! ### Helper lemmas -/

theorem pyInt_mono {x y : ℚ} (h : x ≤ y) : pyInt x ≤ pyInt y := by
  by_cases hx : x < 0 <;> by_cases hy : y < 0
  · simp only [pyInt, if_pos hx, if_pos hy]
    exact Int.ceil_le_ceil h
  · simp only [pyInt, if_pos hx, if_neg hy]
    exact le_trans (Int.ceil_le.mpr (by exact_mod_cast hx.le))
      (Int.floor_nonneg.mpr (not_lt.mp hy))
  · exact absurd (lt_of_le_of_lt h hy) hx
  · simp only [pyInt, if_neg hx, if_neg hy]
    exact Int.floor_le_floor h

theorem lt_of_pyInt_lt {x y : ℚ} (h : pyInt x < pyInt y) : x < y := by
  by_contra hc
  exact absurd (pyInt_mono (not_lt.mp hc)) (not_le.mpr h)

theorem pyInt_nonneg {x : ℚ} (h : 0 ≤ x) : 0 ≤ pyInt x := by
  simp only [pyInt, if_neg (not_lt.mpr h)]
  exact Int.floor_nonneg.mpr h

theorem one_le_of_pyInt_lt {x y : ℚ} (hx : 0 ≤ x) (h : pyInt x < pyInt y) : 1 ≤ y := by
  have h1 : 1 ≤ pyInt y := (pyInt_nonneg hx).trans_lt h
  by_cases hy : y < 0
  · have hc : pyInt y ≤ 0 := by
      simp only [pyInt, if_pos hy]
      exact Int.ceil_le.mpr (by exact_mod_cast hy.le)
    omega
  · have hf : (1 : ℤ) ≤ ⌊y⌋ := by simpa [pyInt, if_neg hy] using h1
    exact_mod_cast Int.le_floor.mp hf

theorem sum_map_div (v : List ℚ) (c : ℚ) :
    (v.map (fun x => x / c)).sum = v.sum / c := by
  induction v with
  | nil => simp
  | cons a t ih => simp [ih, add_div]

theorem sum_map_mul_left_const (v : List ℚ) (c : ℚ) :
    (v.map (fun x => c * x)).sum = c * v.sum := by
  induction v with
  | nil => simp
  | cons a t ih => simp [ih, mul_add]

theorem sum_map_mul_right_const {α : Type} (l : List α) (f : α → ℚ) (c : ℚ) :
    (l.map (fun x => f x * c)).sum = (l.map f).sum * c := by
  induction l with
  | nil => simp
  | cons a t ih => simp [ih, add_mul]

theorem sum_map_add_const {α : Type} (l : List α) (f : α → ℚ) (d : ℚ) :
    (l.map (fun x => f x + d)).sum = (l.map f).sum + (l.length : ℚ) * d := by
  induction l with
  | nil => simp
  | cons a t ih => simp [ih]; ring

theorem normed_sum {v : List ℚ} (hv : v.sum ≠ 0) : (normed v).sum = 1 := by
  simp only [normed, sum_map_div]
  exact div_self hv

theorem normed_length (v : List ℚ) : (normed v).length = v.length := by
  simp [normed]

theorem sum_zipWith_add (a b : List ℚ) (h : a.length = b.length) :
    (List.zipWith (· + ·) a b).sum = a.sum + b.sum := by
  induction a generalizing b with
  | nil => cases b with
    | nil => simp
    | cons y t => simp at h
  | cons x s ih => cases b with
    | nil => simp at h
    | cons y t =>
      simp only [List.length_cons, Nat.succ.injEq] at h
      simp [ih t h]; ring

theorem specFactor_sum {w_gdp w_pop : ℚ} {gdp_n pop_n : List ℚ}
    (hw : w_gdp + w_pop = 1) (hlen : gdp_n.length = pop_n.length)
    (hg : gdp_n.sum ≠ 0) (hp : pop_n.sum ≠ 0) :
    (specFactor w_gdp w_pop gdp_n pop_n).sum = 1 := by
  have hlen2 : ((normed gdp_n).map (fun x => w_gdp * x)).length
      = ((normed pop_n).map (fun x => w_pop * x)).length := by
    simp [normed_length, hlen]
  have hinner : (List.zipWith (· + ·)
      ((normed gdp_n).map (fun x => w_gdp * x))
      ((normed pop_n).map (fun x => w_pop * x))).sum = 1 := by
    rw [sum_zipWith_add _ _ hlen2, sum_map_mul_left_const, sum_map_mul_left_const,
      normed_sum hg, normed_sum hp, mul_one, mul_one, hw]
  rw [specFactor, normed_sum (by rw [hinner]; norm_num)]

theorem update_in_network_eq_map (gens : List Gen) (r : ℚ) (m : MethodIncrease) :
    ∃ f : Gen → Gen, (update_in_network gens r m).1 = gens.map f
      ∧ ∀ g, (f g).pNomMax = g.pNomMax := by
  rcases m <;> simp only [update_in_network] <;> split_ifs
  · exact ⟨_, rfl, fun g => rfl⟩
  · exact ⟨_, rfl, fun g => rfl⟩
  · exact ⟨id, by simp, fun g => rfl⟩
  · exact ⟨_, rfl, fun g => rfl⟩
  · exact ⟨_, rfl, fun g => rfl⟩
  · exact ⟨id, by simp, fun g => rfl⟩
  · exact ⟨_, rfl, fun g => rfl⟩
  · exact ⟨id, by simp, fun g => rfl⟩

theorem firstConflictive_map_none (f : Gen → Gen) (hf : ∀ g, (f g).pNomMax = g.pNomMax)
    (l : List Gen) (hval : ∀ g ∈ l, g.pNom ≤ g.pNomMax) :
    firstConflictive l (l.map f) = none := by
  induction l with
  | nil => rfl
  | cons a t ih =>
    simp only [List.map_cons, firstConflictive]
    rw [if_neg (by rw [hf a]; exact not_lt.mpr (hval a (List.mem_cons_self a t))),
      ih (fun g hg => hval g (List.mem_cons_of_mem a hg))]
    rfl

theorem sanitise_loop_done (orig : List Gen) (m : MethodIncrease) (fuel : ℕ)
    (updated : List Gen) (san : List (ℕ × Gen))
    (hmask : firstConflictive orig updated = none) :
    sanitise_loop orig m (fuel + 1) updated san
      = if updated.any (fun g => decide (g.pNomMax < g.pNom)) then none
        else some updated := by
  by_cases hany : updated.any (fun g => decide (g.pNomMax < g.pNom))
  · simp only [sanitise_loop, hmask, if_pos hany]
  · simp only [sanitise_loop, if_neg hany]

theorem forall2_map_self {R : Gen → Gen → Prop} (f : Gen → Gen) (l : List Gen)
    (h : ∀ a ∈ l, R a (f a)) : List.Forall₂ R l (l.map f) := by
  induction l with
  | nil => exact List.Forall₂.nil
  | cons a t ih =>
    exact List.Forall₂.cons (h a (List.mem_cons_self a t))
      (ih fun b hb => h b (List.mem_cons_of_mem a hb))

theorem sum_pNom_map_scale (gens : List Gen) (k : ℚ) :
    ((gens.map (fun g => { g with pNom := g.pNom * k })).map Gen.pNom).sum
      = (gens.map Gen.pNom).sum * k := by
  induction gens with
  | nil => simp
  | cons a t ih => simp only [List.map_cons, List.sum_cons, ih]; ring

theorem sum_pNom_map_add (gens : List Gen) (d : ℚ) :
    ((gens.map (fun g => { g with pNom := g.pNom + d })).map Gen.pNom).sum
      = (gens.map Gen.pNom).sum + (gens.length : ℚ) * d := by
  induction gens with
  | nil => simp
  | cons a t ih =>
    simp only [List.map_cons, List.sum_cons, ih, List.length_cons]
    push_cast
    ring

theorem uin_decrease (gens : List Gen) (r : ℚ) (m : MethodIncrease)
    (h : pyInt r < pyInt ((gens.map Gen.pNom).sum)) :
    update_in_network gens r m
      = (gens.map (fun g =>
          { g with pNom := g.pNom * (r / (gens.map Gen.pNom).sum) }), false) := by
  have h2 : ¬ (pyInt ((gens.map Gen.pNom).sum) < pyInt r) := by omega
  rcases m <;> simp only [update_in_network, gt_iff_lt] <;> rw [if_neg h2, if_pos h]

theorem uin_noop (gens : List Gen) (r : ℚ) (m : MethodIncrease)
    (h : pyInt r = pyInt ((gens.map Gen.pNom).sum)) :
    update_in_network gens r m = (gens, false) := by
  have h2 : ¬ (pyInt ((gens.map Gen.pNom).sum) < pyInt r) := by omega
  have h3 : ¬ (pyInt r < pyInt ((gens.map Gen.pNom).sum)) := by omega
  rcases m <;> simp only [update_in_network, gt_iff_lt] <;> rw [if_neg h2, if_neg h3]

theorem uin_add (gens : List Gen) (r : ℚ)
    (h : pyInt ((gens.map Gen.pNom).sum) < pyInt r) :
    update_in_network gens r .additional
      = (gens.map (fun g =>
          { g with pNom := g.pNom + (r - (gens.map Gen.pNom).sum) / (gens.length : ℚ) }),
         false) := by
  simp only [update_in_network, gt_iff_lt]
  rw [if_pos h]

theorem uin_prop_pos (gens : List Gen) (r : ℚ)
    (h : pyInt ((gens.map Gen.pNom).sum) < pyInt r)
    (hc : 0 < (gens.map Gen.pNom).sum) :
    update_in_network gens r .proportional
      = (gens.map (fun g =>
          { g with pNom := g.pNom * (r / (gens.map Gen.pNom).sum) }), false) := by
  simp only [update_in_network, gt_iff_lt]
  rw [if_pos h, if_pos hc]

theorem uin_prop_zero (gens : List Gen) (r : ℚ)
    (h : pyInt ((gens.map Gen.pNom).sum) < pyInt r)
    (hc : (gens.map Gen.pNom).sum = 0) :
    update_in_network gens r .proportional
      = (gens.map (fun g =>
          { g with pNom := g.pNom + (r - (gens.map Gen.pNom).sum) / (gens.length : ℚ) }),
         true) := by
  simp only [update_in_network, gt_iff_lt]
  rw [if_pos h, if_neg (by rw [hc]; exact lt_irrefl 0), if_pos hc]

theorem update_in_network_sum {gens : List Gen} {r : ℚ} (m : MethodIncrease)
    (hne : gens ≠ []) (hr : 0 ≤ r) (hc : 0 ≤ (gens.map Gen.pNom).sum)
    (hneq : pyInt r ≠ pyInt ((gens.map Gen.pNom).sum)) :
    ((update_in_network gens r m).1.map Gen.pNom).sum = r := by
  have hN : ((gens.length : ℚ)) ≠ 0 := by
    have := List.length_pos.mpr hne
    positivity
  rcases lt_trichotomy (pyInt r) (pyInt ((gens.map Gen.pNom).sum)) with hlt | heq | hgt
  · have h1 : (1 : ℚ) ≤ (gens.map Gen.pNom).sum := one_le_of_pyInt_lt hr hlt
    have hc0 : (gens.map Gen.pNom).sum ≠ 0 := by linarith
    rw [uin_decrease gens r m hlt]
    simp only [sum_pNom_map_scale]
    field_simp
  · exact absurd heq hneq
  · rcases m with _ | _
    · rw [uin_add gens r hgt]
      simp only [sum_pNom_map_add]
      field_simp
    · rcases lt_or_eq_of_le hc with hcpos | hczero
      · rw [uin_prop_pos gens r hgt hcpos]
        simp only [sum_pNom_map_scale]
        field_simp
      · rw [uin_prop_zero gens r hgt hczero.symm]
        simp only [sum_pNom_map_add]
        field_simp

theorem update_in_network_mono_up {gens : List Gen} {r : ℚ} (m : MethodIncrease)
    (h0 : ∀ g ∈ gens, 0 ≤ g.pNom) (hr : 0 ≤ r)
    (hcr : (gens.map Gen.pNom).sum ≤ r) :
    List.Forall₂ (fun a b => a.pNom ≤ b.pNom) gens (update_in_network gens r m).1 := by
  have hc : 0 ≤ (gens.map Gen.pNom).sum :=
    List.sum_nonneg (fun x hx => by
      obtain ⟨g, hg, rfl⟩ := List.mem_map.mp hx
      exact h0 g hg)
  rcases lt_trichotomy (pyInt r) (pyInt ((gens.map Gen.pNom).sum)) with hlt | heq | hgt
  · exact absurd (lt_of_pyInt_lt hlt) (not_lt.mpr hcr)
  · have heq2 : (update_in_network gens r m).1 = gens := by rw [uin_noop gens r m heq]
    rw [heq2]
    exact List.forall₂_same.mpr (fun g _ => le_refl g.pNom)
  · have hcr' : (gens.map Gen.pNom).sum < r := lt_of_pyInt_lt hgt
    have hadd : ∀ a ∈ gens, a.pNom
        ≤ a.pNom + (r - (gens.map Gen.pNom).sum) / (gens.length : ℚ) := by
      intro a ha
      have hNpos : (0 : ℚ) < (gens.length : ℚ) := by
        have := List.length_pos.mpr (List.ne_nil_of_mem ha)
        positivity
      have hd : 0 ≤ (r - (gens.map Gen.pNom).sum) / (gens.length : ℚ) :=
        div_nonneg (by linarith) hNpos.le
      exact le_add_of_nonneg_right hd
    rcases m with _ | _
    · have heq2 : (update_in_network gens r .additional).1 = gens.map (fun g =>
          { g with pNom := g.pNom + (r - (gens.map Gen.pNom).sum) / (gens.length : ℚ) }) := by
        rw [uin_add gens r hgt]
      rw [heq2]
      exact forall2_map_self _ gens hadd
    · rcases lt_or_eq_of_le hc with hcpos | hczero
      · have heq2 : (update_in_network gens r .proportional).1 = gens.map (fun g =>
            { g with pNom := g.pNom * (r / (gens.map Gen.pNom).sum) }) := by
          rw [uin_prop_pos gens r hgt hcpos]
        rw [heq2]
        refine forall2_map_self _ gens (fun a ha => ?_)
        have h1 : (1 : ℚ) ≤ r / (gens.map Gen.pNom).sum := (one_le_div hcpos).mpr hcr
        exact le_mul_of_one_le_right (h0 a ha) h1
      · have heq2 : (update_in_network gens r .proportional).1 = gens.map (fun g =>
            { g with pNom := g.pNom + (r - (gens.map Gen.pNom).sum) / (gens.length : ℚ) }) := by
          rw [uin_prop_zero gens r hgt hczero.symm]
        rw [heq2]
        exact forall2_map_self _ gens hadd

theorem update_in_network_mono_down {gens : List Gen} {r : ℚ} (m : MethodIncrease)
    (h0 : ∀ g ∈ gens, 0 ≤ g.pNom) (hr : 0 ≤ r)
    (hrc : r ≤ (gens.map Gen.pNom).sum) :
    List.Forall₂ (fun a b => b.pNom ≤ a.pNom) gens (update_in_network gens r m).1 := by
  rcases lt_trichotomy (pyInt r) (pyInt ((gens.map Gen.pNom).sum)) with hlt | heq | hgt
  · have hone : (1 : ℚ) ≤ (gens.map Gen.pNom).sum := one_le_of_pyInt_lt hr hlt
    have hcpos : (0 : ℚ) < (gens.map Gen.pNom).sum := by linarith
    have heq2 : (update_in_network gens r m).1 = gens.map (fun g =>
        { g with pNom := g.pNom * (r / (gens.map Gen.pNom).sum) }) := by
      rw [uin_decrease gens r m hlt]
    rw [heq2]
    refine forall2_map_self _ gens (fun a ha => ?_)
    have h1 : r / (gens.map Gen.pNom).sum ≤ 1 := (div_le_one hcpos).mpr hrc
    exact mul_le_of_le_one_right (h0 a ha) h1
  · have heq2 : (update_in_network gens r m).1 = gens := by rw [uin_noop gens r m heq]
    rw [heq2]
    exact List.forall₂_same.mpr (fun g _ => le_refl g.pNom)
  · exact absurd (lt_of_pyInt_lt hgt) (not_lt.mpr hrc)

theorem update_elec_capacities_some {gens : List Gen} {r : ℚ} {m : MethodIncrease}
    {out : List Gen} (hval : ∀ g ∈ gens, g.pNom ≤ g.pNomMax)
    (h : update_elec_capacities gens r m = some out) :
    out = (update_in_network gens r m).1 := by
  obtain ⟨f, hmap, hf⟩ := update_in_network_eq_map gens r m
  have hfc : firstConflictive gens ((update_in_network gens r m).1) = none := by
    rw [hmap]
    exact firstConflictive_map_none f hf gens hval
  simp only [update_elec_capacities] at h
  by_cases hchk : ((update_in_network gens r m).1.map Gen.pNom).sum
      > ((update_in_network gens r m).1.map Gen.pNomMax).sum
  · rw [if_pos hchk] at h
    exact absurd h (by simp)
  · rw [if_neg hchk, sanitise_loop_done gens m _ _ _ hfc] at h
    by_cases hany : ((update_in_network gens r m).1).any
        (fun g => decide (g.pNomMax < g.pNom))
    · rw [if_pos hany] at h
      exact absurd h (by simp)
    · rw [if_neg hany] at h
      exact (Option.some_inj.mp h).symm

theorem upsampleFactors_spec (u : Bool) (c : String) (g p ga pa : List ℚ)
    (hUA : c ≠ "UA") (hMD : c ≠ "MD") :
    upsampleFactors u c g p ga pa
      = if u = true ∧ c = "ES" then specFactor 0.18 0.82 g p
        else specFactor 0.6 0.4 g p := by
  by_cases hes : c = "ES" <;> cases u <;>
    simp [upsampleFactors, specFactor, hes, hUA, hMD]

theorem factorsES_spec (u : Bool) (g p : List ℚ) :
    factorsES u g p
      = if u = true then specFactor 0.18 0.82 g p else specFactor 0.6 0.4 g p := by
  cases u <;> simp [factorsES, specFactor]

theorem sum_range_lookup {α : Type} (l : List α) (g : Option α → ℚ) :
    ((List.range l.length).map (fun j => g (l.get? j))).sum
      = (l.map (fun o => g (some o))).sum := by
  induction l with
  | nil => simp
  | cons a t ih =>
    rw [List.length_cons, List.range_succ_eq_map, List.map_cons, List.map_map,
      List.sum_cons]
    simp only [Function.comp_def, Nat.succ_eq_add_one, List.get?_cons_succ,
      List.get?_cons_zero]
    rw [ih, List.map_cons, List.sum_cons]

theorem sum_card_inter_le (l : List (Finset ℕ)) (hp : l.Pairwise Disjoint)
    (d : Finset ℕ) : (l.map (fun o => (o ∩ d).card)).sum ≤ d.card := by
  induction l generalizing d with
  | nil => simp
  | cons a t ih =>
    rw [List.pairwise_cons] at hp
    obtain ⟨hdisj, ht⟩ := hp
    rw [List.map_cons, List.sum_cons]
    have hrw : t.map (fun o => (o ∩ d).card) = t.map (fun o => (o ∩ (d \ a)).card) := by
      refine List.map_congr_left (fun o ho => ?_)
      congr 1
      ext x
      simp only [Finset.mem_inter, Finset.mem_sdiff]
      constructor
      · rintro ⟨hxo, hxd⟩
        exact ⟨hxo, hxd, fun hxa => (Finset.disjoint_left.mp (hdisj o ho) hxa) hxo⟩
      · rintro ⟨hxo, hxd, _⟩
        exact ⟨hxo, hxd⟩
    rw [hrw]
    have h1 := ih ht (d \ a)
    have h2 : (d \ a).card + (d ∩ a).card = d.card := Finset.card_sdiff_add_card_inter d a
    have hle : (a ∩ d).card ≤ (d ∩ a).card := le_of_eq (by rw [Finset.inter_comm])
    omega

theorem sum_map_div_fn {α : Type} (l : List α) (f : α → ℚ) (c : ℚ) :
    (l.map (fun x => f x / c)).sum = (l.map f).sum / c := by
  induction l with
  | nil => simp
  | cons a t ih => simp [ih, add_div]

theorem sum_map_card_cast (l : List (Finset ℕ)) (d : Finset ℕ) :
    (l.map (fun o => ((o ∩ d).card : ℚ))).sum
      = (((l.map (fun o => (o ∩ d).card)).sum : ℕ) : ℚ) := by
  induction l with
  | nil => simp
  | cons a t ih => simp [ih]

theorem transferRowSum_eq (orig : List (Finset ℕ)) (dest : List (Finset ℕ))
    (i : ℕ) (d : Finset ℕ) (hd : dest.get? i = some d) :
    transferRowSum orig dest i
      = ((orig.map (fun o => ((o ∩ d).card : ℚ))).sum) / (d.card : ℚ) := by
  unfold transferRowSum shapes_to_shapes
  simp only [hd]
  rw [sum_range_lookup orig (fun x =>
    match x, some d with
    | some o, some d' => if (o ∩ d').Nonempty then shapeArea (o ∩ d') / shapeArea d' else 0
    | _, _ => 0)]
  have hcong : orig.map (fun o =>
      match some o, some d with
      | some o, some d' => if (o ∩ d').Nonempty then shapeArea (o ∩ d') / shapeArea d' else 0
      | _, _ => 0)
      = orig.map (fun o => ((o ∩ d).card : ℚ) / (d.card : ℚ)) := by
    refine List.map_congr_left (fun o _ => ?_)
    by_cases hne : (o ∩ d).Nonempty
    · simp only [if_pos hne, shapeArea]
    · simp only [if_neg hne, shapeArea]
      rw [Finset.not_nonempty_iff_eq_empty.mp hne]
      simp
  rw [hcong, sum_map_div_fn]

theorem sum_map_mul_right_id (l : List ℚ) (c : ℚ) :
    (l.map (fun x => x * c)).sum = l.sum * c := by
  induction l with
  | nil => simp
  | cons a t ih => simp [ih, add_mul]

/-! ### Claim theorems -/

/-- Claim C9: in national mode, a country whose group holds exactly one
target bus receives the whole national series on that bus: with scaling
factor 1 the single output column equals the input series unchanged. -/
theorem C9_single_bus (u : Bool) (c : String) (b : String) (raw : ℕ → ℚ)
    (gdp_n pop_n gdpAlt popAlt : List ℚ) (t : ℕ) :
    attach_load_upsample u 1 c [b] raw gdp_n pop_n gdpAlt popAlt t = [raw t] := by
  simp [attach_load_upsample, upsample]

/-- Claim C10: the capacity-update rule compares the required and the current
total capacity only after truncation to integers: whenever the truncations
agree, the returned frame is the input frame unchanged (and no warning is
printed), even when the real-valued target and total differ. -/
theorem C10_truncated_comparison (gens : List Gen) (r : ℚ) (m : MethodIncrease)
    (h : pyInt r = pyInt ((gens.map Gen.pNom).sum)) :
    update_in_network gens r m = (gens, false) :=
  uin_noop gens r m h

/-- Claim C10 witness: a target of 0.999 against a current total of minus
0.999 (differing by 1.998, just under 2) both truncate to 0, so the frame is
returned unchanged. -/
theorem C10_witness :
    pyInt (999/1000 : ℚ) = pyInt ((([⟨-(999/1000), 5⟩] : List Gen).map Gen.pNom).sum)
    ∧ update_in_network [⟨-(999/1000), 5⟩] (999/1000) .additional
        = ([⟨-(999/1000), 5⟩], false)
    ∧ (999/1000 : ℚ) - (-(999/1000)) = 1998/1000 := by
  have hs : (([⟨-(999/1000), 5⟩] : List Gen).map Gen.pNom).sum = -(999/1000) := by
    simp
  have h1 : pyInt (999/1000 : ℚ) = 0 := by
    simp only [pyInt, if_neg (by norm_num : ¬ (999/1000 : ℚ) < 0)]
    norm_num [Int.floor_eq_iff]
  have h2 : pyInt (-(999/1000) : ℚ) = 0 := by
    simp only [pyInt, if_pos (by norm_num : (-(999/1000) : ℚ) < 0)]
    norm_num [Int.ceil_eq_iff]
  have hpy : pyInt (999/1000 : ℚ)
      = pyInt ((([⟨-(999/1000), 5⟩] : List Gen).map Gen.pNom).sum) := by
    rw [hs, h1, h2]
  exact ⟨hpy, C10_truncated_comparison _ _ _ hpy, by norm_num⟩

/-- Claim C8: a reservoir plant with a missing or nonpositive `max_hours`
whose country has no reported storage statistics ends with `max_hours = 6`,
the missing-country warning is emitted, and the country-level estimates are
clipped below at zero before being applied. -/
theorem C8_default_max_hours (stats : String → Option ℚ) (plants : List HydroPlant)
    (p : HydroPlant) (hp : p ∈ plants)
    (hmh : ∀ v, p.max_hours = some v → v ≤ 0)
    (hstat : stats p.country = none) :
    hydro_max_hours stats p = 6 ∧ hydro_warning stats plants = true
    ∧ (∀ c v, max_hours_country_clipped stats c = some v → 0 ≤ v) := by
  refine ⟨?_, ?_, ?_⟩
  · rcases hpm : p.max_hours with _ | v
    · simp [hydro_max_hours, hpm, max_hours_country_clipped, hstat]
    · simp only [hydro_max_hours, hpm]
      rw [if_neg (not_lt.mpr (hmh v hpm))]
      simp [max_hours_country_clipped, hstat]
  · rw [hydro_warning, List.any_eq_true]
    exact ⟨p, hp, by simp [hstat]⟩
  · intro c v hv
    rcases hsc : stats c with _ | w
    · simp [max_hours_country_clipped, hsc] at hv
    · simp only [max_hours_country_clipped, hsc, Option.map_some'] at hv
      injection hv with hv2
      rw [← hv2]
      exact le_max_right w 0

/-- Claim C8 witness: a plant with no `max_hours` in a country with no
statistics gets 6 hours, and the warning fires. -/
theorem C8_witness :
    hydro_max_hours (fun _ => none) ⟨"ES", none⟩ = 6
    ∧ hydro_warning (fun _ => none) [⟨"ES", none⟩] = true := by
  have h := C8_default_max_hours (fun _ => none) [⟨"ES", none⟩] ⟨"ES", none⟩
    (List.mem_singleton_self _) (fun v hv => by simp at hv) rfl
  exact ⟨h.1, h.2.1⟩

/-- Claim C7: away from the UA/MD override, the per-bus factors follow the
formula `normalize(w_gdp * normalize(gdp_n) + w_pop * normalize(pop_n))`, and
the alternate weights 0.18/0.82 replace the default 0.6/0.4 exactly when the
`update_gdp_pop` configuration applies; in `attach_load` this additionally
requires the country to be ES (and the regional variant runs on ES only). -/
theorem C7_factor_formula (u : Bool) (c : String) (g p ga pa : List ℚ)
    (hUA : c ≠ "UA") (hMD : c ≠ "MD") :
    upsampleFactors u c g p ga pa
      = (if u = true ∧ c = "ES" then specFactor 0.18 0.82 g p
         else specFactor 0.6 0.4 g p)
    ∧ factorsES u g p
      = (if u = true then specFactor 0.18 0.82 g p else specFactor 0.6 0.4 g p) :=
  ⟨upsampleFactors_spec u c g p ga pa hUA hMD, factorsES_spec u g p⟩

/-- Claim C7 witness: on ES with the configuration enabled the alternate
weights take effect, and without it the default weights do. -/
theorem C7_witness :
    upsampleFactors true "ES" [1] [2] [] [] = specFactor 0.18 0.82 [1] [2]
    ∧ upsampleFactors false "ES" [1] [2] [] [] = specFactor 0.6 0.4 [1] [2] := by
  have h1 := (C7_factor_formula true "ES" [1] [2] [] []
    (by decide) (by decide)).1
  have h2 := (C7_factor_formula false "ES" [1] [2] [] []
    (by decide) (by decide)).1
  constructor
  · rw [h1, if_pos ⟨rfl, rfl⟩]
  · rw [h2, if_neg (by simp)]

theorem upsampleFactors_override (u : Bool) (c : String) (g p ga pa : List ℚ)
    (h : c = "UA" ∨ c = "MD") :
    upsampleFactors u c g p ga pa = specFactor 0.6 0.4 ga pa := by
  rcases h with rfl | rfl <;> cases u <;> simp [upsampleFactors, specFactor]

/-- Claim C3: with nonzero GDP and population denominators the
disaggregation factors of a group sum to 1 — in the national variant for
every country (including the UA/MD override, whose substitute table is
assumed well formed too) and in the regional variant — and hence the
disaggregated load summed over the group equals the input series value at
every timestamp. -/
theorem C3_load_conservation (u : Bool) (c : String) (group : List String)
    (load loadRR : ℕ → ℚ) (gdp_n pop_n gdpAlt popAlt : List ℚ) (t : ℕ)
    (hlen : gdp_n.length = pop_n.length)
    (hg : gdp_n.sum ≠ 0) (hp : pop_n.sum ≠ 0)
    (hlenA : gdpAlt.length = popAlt.length)
    (hgA : gdpAlt.sum ≠ 0) (hpA : popAlt.sum ≠ 0) :
    (upsampleFactors u c gdp_n pop_n gdpAlt popAlt).sum = 1
    ∧ (factorsES u gdp_n pop_n).sum = 1
    ∧ (upsample u c group load gdp_n pop_n gdpAlt popAlt t).sum = load t
    ∧ (upsample_vPyPSA_Spain u loadRR gdp_n pop_n t).sum = loadRR t := by
  have hw1 : (0.18 : ℚ) + 0.82 = 1 := by norm_num
  have hw2 : (0.6 : ℚ) + 0.4 = 1 := by norm_num
  have hf1 : (upsampleFactors u c gdp_n pop_n gdpAlt popAlt).sum = 1 := by
    by_cases hover : c = "UA" ∨ c = "MD"
    · rw [upsampleFactors_override u c gdp_n pop_n gdpAlt popAlt hover]
      exact specFactor_sum hw2 hlenA hgA hpA
    · push_neg at hover
      rw [upsampleFactors_spec u c gdp_n pop_n gdpAlt popAlt hover.1 hover.2]
      by_cases hes : u = true ∧ c = "ES"
      · rw [if_pos hes]
        exact specFactor_sum hw1 hlen hg hp
      · rw [if_neg hes]
        exact specFactor_sum hw2 hlen hg hp
  have hf2 : (factorsES u gdp_n pop_n).sum = 1 := by
    rw [factorsES_spec]
    cases u
    · rw [if_neg (by simp)]
      exact specFactor_sum hw2 hlen hg hp
    · rw [if_pos rfl]
      exact specFactor_sum hw1 hlen hg hp
  refine ⟨hf1, hf2, ?_, ?_⟩
  · rw [upsample]
    by_cases h1 : group.length = 1
    · rw [if_pos h1]
      simp
    · rw [if_neg h1, sum_map_mul_right_id, hf1, one_mul]
  · rw [upsample_vPyPSA_Spain, sum_map_mul_right_id, hf2, one_mul]

/-- Claim C3 witness: a two-bus group with GDP weights (1,1) and population
weights (1,3) conserves a 100 MW load value. -/
theorem C3_witness :
    (upsampleFactors false "FR" [1, 1] [1, 3] [1] [1]).sum = 1
    ∧ (upsample false "FR" ["b1", "b2"] (fun _ => 100) [1, 1] [1, 3] [1] [1] 0).sum
        = 100 := by
  have h := C3_load_conservation false "FR" ["b1", "b2"] (fun _ => 100)
    (fun _ => 100) [1, 1] [1, 3] [1] [1] 0 rfl
    (by norm_num) (by norm_num) rfl (by norm_num) (by norm_num)
  exact ⟨h.1, h.2.2.1⟩

/-- Claim C2 counterexample: with one candidate of capacity 10.1, target
10.9 and method "additional", the claim as stated predicts a gain of
(10.9 - 10.1)/1, but the code leaves the capacity at 10.1 because the
truncations int(10.9) and int(10.1) agree. -/
theorem C2_counterexample :
    (109/10 : ℚ) > (([⟨101/10, 100⟩] : List Gen).map Gen.pNom).sum
    ∧ (update_in_network [⟨101/10, 100⟩] (109/10) .additional).1.map Gen.pNom
        = [101/10]
    ∧ (101/10 : ℚ) ≠ 101/10 + ((109/10 : ℚ) - 101/10) / 1 := by
  refine ⟨by norm_num, ?_, by norm_num⟩
  norm_num [update_in_network, pyInt, Int.floor_eq_iff]

/-- Claim C2 (amended): with a nonnegative current total, the capacity-update
rule behaves exactly as the claim describes once the three-way comparison
between required and current is made after integer truncation: "additional"
adds (required - current)/N to each of the N candidates, "proportional"
scales by required/current and falls back to "additional" with a warning
when the current total is exactly zero, a lower truncated target scales
down proportionally, and equal values (in particular an exactly equal
real-valued target) change nothing. -/
theorem C2_update_rule (gens : List Gen) (r : ℚ) (m : MethodIncrease)
    (hc : 0 ≤ (gens.map Gen.pNom).sum) :
    (update_in_network gens r m).1.map Gen.pNom
        = (updateRuleSpec (gens.map Gen.pNom) r m).1
    ∧ (update_in_network gens r m).2 = (updateRuleSpec (gens.map Gen.pNom) r m).2
    ∧ (r = (gens.map Gen.pNom).sum → update_in_network gens r m = (gens, false)) := by
  rcases lt_trichotomy (pyInt r) (pyInt ((gens.map Gen.pNom).sum)) with hlt | heq | hgt
  · have h2 : ¬ (pyInt ((gens.map Gen.pNom).sum) < pyInt r) := by omega
    rw [uin_decrease gens r m hlt]
    simp only [updateRuleSpec]
    rw [if_neg h2, if_pos hlt]
    exact ⟨by simp [List.map_map, Function.comp_def], rfl,
      fun hre => absurd (congrArg pyInt hre) (ne_of_lt hlt)⟩
  · rw [uin_noop gens r m heq]
    have h2 : ¬ (pyInt ((gens.map Gen.pNom).sum) < pyInt r) := by omega
    have h3 : ¬ (pyInt r < pyInt ((gens.map Gen.pNom).sum)) := by omega
    simp only [updateRuleSpec]
    rw [if_neg h2, if_neg h3]
    exact ⟨rfl, by trivial, fun _ => by trivial⟩
  · rcases m with _ | _
    · rw [uin_add gens r hgt]
      simp only [updateRuleSpec]
      rw [if_pos hgt]
      exact ⟨by simp [List.map_map, Function.comp_def], rfl,
        fun hre => absurd (congrArg pyInt hre) (ne_of_gt hgt)⟩
    · rcases lt_or_eq_of_le hc with hcpos | hczero
      · rw [uin_prop_pos gens r hgt hcpos]
        simp only [updateRuleSpec]
        rw [if_pos hgt, if_neg (ne_of_gt hcpos)]
        exact ⟨by simp [List.map_map, Function.comp_def], rfl,
          fun hre => absurd (congrArg pyInt hre) (ne_of_gt hgt)⟩
      · rw [uin_prop_zero gens r hgt hczero.symm]
        simp only [updateRuleSpec]
        rw [if_pos hgt, if_pos hczero.symm]
        exact ⟨by simp [List.map_map, Function.comp_def], rfl,
          fun hre => absurd (congrArg pyInt hre) (ne_of_gt hgt)⟩

/-- Claim C2 witness: two candidates of capacities 2 and 4 scaled
proportionally toward a target of 9 follow the (amended) rule, giving 3
and 6. -/
theorem C2_witness :
    (update_in_network [⟨2, 9⟩, ⟨4, 9⟩] 9 .proportional).1.map Gen.pNom
      = (updateRuleSpec [2, 4] 9 .proportional).1
    ∧ (updateRuleSpec [2, 4] 9 .proportional).1 = [3, 6] := by
  have h := C2_update_rule [⟨2, 9⟩, ⟨4, 9⟩] 9 .proportional (by norm_num)
  have hmap : ([⟨2, 9⟩, ⟨4, 9⟩] : List Gen).map Gen.pNom = [2, 4] := by norm_num
  have h1 := h.1
  rw [hmap] at h1
  refine ⟨h1, ?_⟩
  norm_num [updateRuleSpec, pyInt, Int.floor_eq_iff]

/-- Claim C4 counterexample: for the overlapping source polygons [P, P]
with target [P] every target area is positive, yet row 0 of the transfer
matrix sums to 2, above 1: the row-sum bound needs disjoint sources. -/
theorem C4_counterexample :
    (∀ d ∈ [({0} : Finset ℕ)], 0 < shapeArea d)
    ∧ transferRowSum [({0} : Finset ℕ), {0}] [({0} : Finset ℕ)] 0 = 2 := by
  constructor
  · intro d hd
    rw [List.mem_singleton.mp hd]
    norm_num [shapeArea]
  · norm_num [transferRowSum, shapes_to_shapes, shapeArea, List.range_succ,
      List.range_zero]

/-- Claim C4 (amended): when the target polygons have positive area, every
transfer-matrix entry lies in [0,1] and an entry is nonzero only when the
source polygon intersects the target polygon, in which case it equals
intersection area over target area — with no restriction on the source
polygons; assuming additionally that the source polygons are pairwise
disjoint, every row sums to at most 1. -/
theorem C4_transfer_bounds (orig dest : List (Finset ℕ))
    (hpos : ∀ d ∈ dest, 0 < shapeArea d) :
    (∀ i j, 0 ≤ shapes_to_shapes orig dest i j ∧ shapes_to_shapes orig dest i j ≤ 1)
    ∧ (∀ i j, shapes_to_shapes orig dest i j ≠ 0 →
        ∃ o d, orig.get? j = some o ∧ dest.get? i = some d ∧ (o ∩ d).Nonempty
          ∧ shapes_to_shapes orig dest i j = shapeArea (o ∩ d) / shapeArea d)
    ∧ (orig.Pairwise Disjoint → ∀ i, transferRowSum orig dest i ≤ 1) := by
  refine ⟨?_, ?_, ?_⟩
  · intro i j
    rcases ho : orig.get? j with _ | o
    · simp only [shapes_to_shapes, ho]
      norm_num
    · rcases hd : dest.get? i with _ | d
      · simp only [shapes_to_shapes, ho, hd]
        norm_num
      · simp only [shapes_to_shapes, ho, hd]
        by_cases hne : (o ∩ d).Nonempty
        · rw [if_pos hne]
          have hdp : 0 < shapeArea d := hpos d (List.get?_mem hd)
          constructor
          · refine div_nonneg ?_ hdp.le
            simp only [shapeArea]
            positivity
          · rw [div_le_one hdp]
            simp only [shapeArea]
            exact_mod_cast Finset.card_le_card Finset.inter_subset_right
        · rw [if_neg hne]
          norm_num
  · intro i j hne0
    rcases ho : orig.get? j with _ | o
    · exact absurd (by simp only [shapes_to_shapes, ho]) hne0
    · rcases hd : dest.get? i with _ | d
      · exact absurd (by simp only [shapes_to_shapes, ho, hd]) hne0
      · by_cases hne : (o ∩ d).Nonempty
        · refine ⟨o, d, rfl, rfl, hne, ?_⟩
          simp only [shapes_to_shapes, ho, hd]
          rw [if_pos hne]
        · refine absurd ?_ hne0
          simp only [shapes_to_shapes, ho, hd]
          rw [if_neg hne]
  · intro hdisj i
    rcases hd : dest.get? i with _ | d
    · have hz : ∀ j, shapes_to_shapes orig dest i j = 0 := by
        intro j
        rcases ho : orig.get? j with _ | o <;> simp only [shapes_to_shapes, ho, hd]
      unfold transferRowSum
      simp only [hz]
      simp
    · rw [transferRowSum_eq orig dest i d hd, sum_map_card_cast]
      have hdp : (0 : ℚ) < (d.card : ℚ) := by
        have := hpos d (List.get?_mem hd)
        simpa [shapeArea] using this
      rw [div_le_one hdp]
      exact_mod_cast sum_card_inter_le orig hdisj d

/-- Claim C4 witness: two disjoint unit sources inside one two-cell target
give a row that sums to at most 1, and even for the overlapping sources
[P, P] against target [P] each entry stays within [0,1]. -/
theorem C4_witness :
    transferRowSum [({0} : Finset ℕ), {1}] [({0, 1} : Finset ℕ)] 0 ≤ 1
    ∧ (0 ≤ shapes_to_shapes [({0} : Finset ℕ), {0}] [({0} : Finset ℕ)] 0 1
       ∧ shapes_to_shapes [({0} : Finset ℕ), {0}] [({0} : Finset ℕ)] 0 1 ≤ 1) := by
  have h := C4_transfer_bounds [({0} : Finset ℕ), {1}] [({0, 1} : Finset ℕ)]
    (by
      intro d hd
      rw [List.mem_singleton.mp hd]
      norm_num [shapeArea])
  have hover := C4_transfer_bounds [({0} : Finset ℕ), {0}] [({0} : Finset ℕ)]
    (by
      intro d hd
      rw [List.mem_singleton.mp hd]
      norm_num [shapeArea])
  refine ⟨h.2.2 ?_ 0, hover.1 0 1⟩
  rw [List.pairwise_cons]
  refine ⟨?_, List.pairwise_singleton _ _⟩
  intro s hs
  rw [List.mem_singleton.mp hs]
  rw [Finset.disjoint_left]
  intro a ha hb
  simp at ha hb
  omega

/-- Claim C1 (code bug): two candidates (p_nom, p_nom_max) = (10,12),(10,100)
with target 30 and method "additional" satisfy the claim hypothesis
(30 below the combined upper bound 112), and the intended repair is
(12, 18); but the update gives (15, 15), the loop condition fires, and the
selection mask of line 1108 — which reads the ORIGINAL capacities, both
within bounds — is empty, so `.index[0]` raises IndexError: the run dies
instead of converging. -/
theorem C1_overflow_loop_crash :
    (30 : ℚ) < (([⟨10, 12⟩, ⟨10, 100⟩] : List Gen).map Gen.pNomMax).sum
    ∧ update_elec_capacities [⟨10, 12⟩, ⟨10, 100⟩] 30 .additional = none := by
  refine ⟨by norm_num, ?_⟩
  norm_num [update_elec_capacities, update_in_network, sanitise_loop, firstConflictive,
    pyInt, Int.floor_eq_iff, List.any_cons, List.any_nil, decide_eq_true_eq, List.enum]

/-- Claim C5 counterexample: one candidate with p_nom = 10.1 and
p_nom_max = 10.5 against a required target of 10.9: the target exceeds the
combined upper bound, yet the run is not aborted (it completes unchanged),
because the pre-loop check compares the post-update total — which the
truncated comparison int(10.9) == int(10.1) left at 10.1 — rather than the
required target itself. -/
theorem C5_counterexample :
    (109/10 : ℚ) > (([⟨101/10, 105/10⟩] : List Gen).map Gen.pNomMax).sum
    ∧ update_elec_capacities [⟨101/10, 105/10⟩] (109/10) .additional
        = some [⟨101/10, 105/10⟩] := by
  refine ⟨by norm_num, ?_⟩
  norm_num [update_elec_capacities, update_in_network, sanitise_loop, firstConflictive,
    pyInt, Int.floor_eq_iff, List.any_cons, List.any_nil, decide_eq_true_eq, List.enum]

/-- Claim C5 (amended): for a nonempty candidate set with nonnegative
required target and current total, whenever the truncated comparison fires
(int of target differs from int of the current total) and the required
target exceeds the combined upper bound, the reconciler aborts the whole
run — and the check happens once, before the overflow-repair loop is
entered. -/
theorem C5_upfront_abort (gens : List Gen) (r : ℚ) (m : MethodIncrease)
    (hne : gens ≠ []) (hr : 0 ≤ r) (hc : 0 ≤ (gens.map Gen.pNom).sum)
    (hneq : pyInt r ≠ pyInt ((gens.map Gen.pNom).sum))
    (hbound : (gens.map Gen.pNomMax).sum < r) :
    update_elec_capacities gens r m = none := by
  have hsum := update_in_network_sum m hne hr hc hneq
  obtain ⟨f, hmap, hf⟩ := update_in_network_eq_map gens r m
  have hmax : ((update_in_network gens r m).1.map Gen.pNomMax).sum
      = (gens.map Gen.pNomMax).sum := by
    rw [hmap, List.map_map]
    congr 1
    exact List.map_congr_left (fun g _ => hf g)
  have hcond : ((update_in_network gens r m).1.map Gen.pNom).sum
      > ((update_in_network gens r m).1.map Gen.pNomMax).sum := by
    rw [hsum, hmax]
    exact hbound
  simp only [update_elec_capacities]
  rw [if_pos hcond]

/-- Claim C5 witness: one candidate of capacity 1 and bound 2 with a
required target of 5 aborts the run. -/
theorem C5_witness : update_elec_capacities [⟨1, 2⟩] 5 .additional = none := by
  have h5 : pyInt (5 : ℚ) = 5 := by
    simp only [pyInt, if_neg (by norm_num : ¬ (5 : ℚ) < 0)]
    norm_num [Int.floor_eq_iff]
  have h1 : pyInt ((([⟨1, 2⟩] : List Gen).map Gen.pNom).sum) = 1 := by
    have hs : (([⟨1, 2⟩] : List Gen).map Gen.pNom).sum = 1 := by norm_num
    rw [hs]
    simp only [pyInt, if_neg (by norm_num : ¬ (1 : ℚ) < 0)]
    norm_num [Int.floor_eq_iff]
  refine C5_upfront_abort [⟨1, 2⟩] 5 .additional (by simp) (by norm_num)
    (by norm_num) ?_ (by norm_num)
  rw [h5, h1]
  norm_num

/-- Claim C6 counterexample: candidates (20,15),(0,1000) with target 30
(above the initial total 20) and method "additional": the loop clamps the
first generator from 25 down to 15, BELOW its initial 20, and the run
completes with (15, 15) — so an increase run can decrease a generator. -/
theorem C6_counterexample :
    update_elec_capacities [⟨20, 15⟩, ⟨0, 1000⟩] 30 .additional
      = some [⟨15, 15⟩, ⟨15, 1000⟩]
    ∧ (30 : ℚ) > (([⟨20, 15⟩, ⟨0, 1000⟩] : List Gen).map Gen.pNom).sum
    ∧ (15 : ℚ) < 20 := by
  refine ⟨?_, by norm_num, by norm_num⟩
  norm_num [update_elec_capacities, update_in_network, sanitise_loop, firstConflictive,
    dropIdx, writeBack, pyInt, Int.floor_eq_iff, List.any_cons, List.any_nil,
    decide_eq_true_eq, List.enum]

/-- Claim C6 (amended): when the required target is nonnegative and every
candidate starts with 0 <= p_nom <= p_nom_max, any completed reconciliation
is monotone: a target above the initial total decreases no generator, and a
target below the initial total increases none. -/
theorem C6_monotonicity (gens : List Gen) (r : ℚ) (m : MethodIncrease)
    (out : List Gen)
    (hval : ∀ g ∈ gens, 0 ≤ g.pNom ∧ g.pNom ≤ g.pNomMax) (hr : 0 ≤ r)
    (hsome : update_elec_capacities gens r m = some out) :
    ((gens.map Gen.pNom).sum < r →
      List.Forall₂ (fun a b => a.pNom ≤ b.pNom) gens out)
    ∧ (r < (gens.map Gen.pNom).sum →
      List.Forall₂ (fun a b => b.pNom ≤ a.pNom) gens out) := by
  have hout := update_elec_capacities_some (fun g hg => (hval g hg).2) hsome
  subst hout
  constructor
  · intro hlt
    exact update_in_network_mono_up m (fun g hg => (hval g hg).1) hr hlt.le
  · intro hlt
    exact update_in_network_mono_down m (fun g hg => (hval g hg).1) hr hlt.le

/-- Claim C6 witness: capacities (2,3) with bounds (10,10) raised toward a
target of 9 end at (4,5): no generator decreased. -/
theorem C6_witness :
    List.Forall₂ (fun a b => a.pNom ≤ b.pNom) ([⟨2, 10⟩, ⟨3, 10⟩] : List Gen)
      ([⟨4, 10⟩, ⟨5, 10⟩] : List Gen) := by
  have h := C6_monotonicity [⟨2, 10⟩, ⟨3, 10⟩] 9 .additional [⟨4, 10⟩, ⟨5, 10⟩]
    (by
      intro g hg
      simp only [List.mem_cons, List.not_mem_nil, or_false] at hg
      rcases hg with rfl | rfl <;> norm_num)
    (by norm_num)
    (by norm_num [update_elec_capacities, update_in_network, sanitise_loop,
      firstConflictive, pyInt, Int.floor_eq_iff, List.any_cons, List.any_nil,
      decide_eq_true_eq, List.enum])
  exact h.1 (by norm_num)
